import Mathlib

/-!
Shallow embedding of the live-transcription core of the repository:
the gap-aware segment merger, the word-to-segment converter, the
averaging downsampler, the WAV chunk encoder, the stale-run guard, the
session-scoped chunk aggregator with its processed-id set, and the claim
list merge.  Numbers are modelled as rationals, JavaScript strings as
Lean strings (lists of characters).
-/

namespace Transcript

/-- Character class of the regular-expression `\s` and of `String.prototype.trim`
(the common whitespace characters that occur in transcript text). -/

def isSpaceChar (c : Char) : Bool :=
  c == ' ' || c == '\t' || c == '\n' || c == '\r' || c == '\x0c' || c == '\x0b'

/-- Helper for `replace(/\s+/g, " ")`: the flag records whether the previous
character was part of a whitespace run already emitted as one space. -/

def collapseWsAux : Bool → List Char → List Char
  | _, [] => []
  | prevWs, c :: cs =>
    if isSpaceChar c then
      if prevWs then collapseWsAux true cs else ' ' :: collapseWsAux true cs
    else c :: collapseWsAux false cs

/-- Models `str.replace(/\s+/g, " ")`: every maximal whitespace run becomes a
single space. -/

def collapseWs (l : List Char) : List Char := collapseWsAux false l

/-- Models `str.trim()`: drop leading and trailing whitespace. -/

def trimWs (l : List Char) : List Char :=
  ((l.dropWhile isSpaceChar).reverse.dropWhile isSpaceChar).reverse

/-- Models `str.trim()` on strings. -/

def trimString (s : String) : String := (trimWs s.data).asString

/-- Models `str.replace(/\s+/g, " ").trim()`, the text normalization used by
`mergeSegments`. -/

def normalizeSpaceText (s : String) : String := (trimWs (collapseWs s.data)).asString

/-- The `Segment` interface of the source: a single-speaker span with absolute
start and end times. -/

structure Segment where
  id : String
  sessionId : String
  speaker : String
  start : ℚ
  «end» : ℚ
  text : String
deriving DecidableEq

/-- `MERGE_GAP_SECONDS` of the chunked transcription hook (1.25 seconds). -/

def MERGE_GAP_SECONDS : ℚ := 1.25

/-- One iteration of the `for (const segment of incoming)` loop inside
`mergeSegments`: merge the candidate into the last accumulated segment when
session, speaker and gap allow it, otherwise append it. -/

def mergeOne (merged : List Segment) (segment : Segment) : List Segment :=
  match merged.getLast? with
  | none => merged ++ [segment]
  | some previous =>
    if previous.sessionId = segment.sessionId ∧ previous.speaker = segment.speaker ∧
        segment.start - previous.«end» ≤ MERGE_GAP_SECONDS then
      merged.dropLast ++ [{ previous with
        «end» := max previous.«end» segment.«end»,
        text := normalizeSpaceText (previous.text ++ " " ++ segment.text) }]
    else
      merged ++ [segment]

/-- `mergeSegments(current, incoming)` of the source: fold every incoming
candidate into the accumulated list (the early return on an empty `incoming`
coincides with the fold over the empty list). -/

def mergeSegments (current incoming : List Segment) : List Segment :=
  incoming.foldl mergeOne current

/-- Spec example for C1: last segment of speaker `spk_0` ending at 10.0; a
candidate starting at 11.25 (gap exactly 1.25) merges, a candidate starting at
11.26 is appended. -/

def segEndTen : Segment :=
  { id := "a", sessionId := "s1", speaker := "spk_0", start := 9, «end» := 10, text := "hello" }

def segStart1125 : Segment :=
  { id := "b", sessionId := "s1", speaker := "spk_0", start := 11.25, «end» := 12, text := "world" }

def segStart1126 : Segment :=
  { id := "c", sessionId := "s1", speaker := "spk_0", start := 11.26, «end» := 12, text := "world" }

/-- The `ElevenLabsWord` interface: a provider word with chunk-relative
timestamps.  `none` in `start`/`end` models a missing or non-finite timestamp
(the source guards every read with `Number.isFinite`); `none` in `speaker_id`
models an absent speaker tag. -/

structure ELWord where
  text : String
  type : String
  start : Option ℚ
  «end» : Option ℚ
  speaker_id : Option String
deriving DecidableEq

/-- Leftmost maximal digit run of a character list: models the regex match
`speakerId.match(/(\d+)/)` capture. -/

def firstDigitRun : List Char → Option (List Char)
  | [] => none
  | c :: cs => if c.isDigit then some (c :: cs.takeWhile Char.isDigit) else firstDigitRun cs

/-- `normalizeSpeakerId` of the source.  A missing tag (and the empty string,
which is falsy) becomes `spk_0`; a tag containing digits becomes `spk_` plus
its first digit run; a digit-free tag starting with `speaker_` has that prefix
replaced by `spk_`; any other tag is returned unchanged. -/

def normalizeSpeakerId : Option String → String
  | none => "spk_0"
  | some s =>
    if s = "" then "spk_0"
    else
      match firstDigitRun s.data with
      | some run => "spk_" ++ run.asString
      | none =>
        if s.data.take 8 = "speaker_".data then "spk_" ++ (s.data.drop 8).asString
        else s

/-- Deterministic rendering of the segment id produced by
`convertWordsToSegments` (the source appends a random suffix, which is
nondeterministic and carries no information; it is omitted here). -/

def segmentIdFor (sessionId : String) (chunkId : ℕ) (segmentStart : ℚ) : String :=
  "seg_" ++ sessionId ++ "_" ++ toString chunkId ++ "_" ++ toString segmentStart

/-- The `pushSegment` closure of `convertWordsToSegments`: close the
in-progress segment, trimming its text and discarding it when the trimmed text
is empty or no speaker is set; absolute times are the chunk offset plus the
word-relative offsets. -/

def pushSegment (sessionId : String) (chunkStart : ℚ) (chunkId : ℕ)
    (currentSpeaker : Option String) (currentText : String)
    (segmentStart lastWordEnd : ℚ) : List Segment :=
  match currentSpeaker with
  | none => []
  | some sp =>
    let trimmed := trimString currentText
    if trimmed = "" then []
    else
      [{ id := segmentIdFor sessionId chunkId segmentStart,
         sessionId := sessionId, speaker := sp,
         start := chunkStart + segmentStart,
         «end» := chunkStart + lastWordEnd,
         text := trimmed }]

/-- The local `const start` of the word loop: the word-relative start with its
`Number.isFinite` fallback to `lastWordEnd`. -/

def wordStart (w : ELWord) (lastWordEnd : ℚ) : ℚ := w.start.getD lastWordEnd

/-- The local `const end` of the word loop, falling back to the word start. -/

def wordEnd (w : ELWord) (lastWordEnd : ℚ) : ℚ := w.«end».getD (wordStart w lastWordEnd)

/-- The update `lastWordEnd = Math.max(end, start)` performed for every word
of type `"word"`. -/

def newLastWordEnd (w : ELWord) (lastWordEnd : ℚ) : ℚ :=
  max (wordEnd w lastWordEnd) (wordStart w lastWordEnd)

/-- The word loop of `convertWordsToSegments`, carrying the mutable state
`currentSpeaker`, `currentText`, `segmentStart`, `lastWordEnd` of the source.
The source reads `word.type` first and `currentSpeaker` second; the case
split on `currentSpeaker` is hoisted into the patterns here (for the
`"spacing"` and other-type branches the speaker state is not inspected, so
both arms behave identically there). -/

def convertGo (sessionId : String) (chunkStart : ℚ) (chunkId : ℕ) :
    List ELWord → Option String → String → ℚ → ℚ → List Segment
  | [], currentSpeaker, currentText, segmentStart, lastWordEnd =>
    pushSegment sessionId chunkStart chunkId currentSpeaker currentText segmentStart lastWordEnd
  | w :: ws, none, currentText, segmentStart, lastWordEnd =>
    if w.type = "word" then
      convertGo sessionId chunkStart chunkId ws (some (normalizeSpeakerId w.speaker_id)) w.text
        (wordStart w lastWordEnd) (newLastWordEnd w lastWordEnd)
    else if w.type = "spacing" then
      convertGo sessionId chunkStart chunkId ws none (currentText ++ " ") segmentStart lastWordEnd
    else
      convertGo sessionId chunkStart chunkId ws none currentText segmentStart lastWordEnd
  | w :: ws, some sp, currentText, segmentStart, lastWordEnd =>
    if w.type = "word" then
      if normalizeSpeakerId w.speaker_id ≠ sp then
        pushSegment sessionId chunkStart chunkId (some sp) currentText segmentStart lastWordEnd
          ++ convertGo sessionId chunkStart chunkId ws (some (normalizeSpeakerId w.speaker_id))
            w.text (wordStart w lastWordEnd) (newLastWordEnd w lastWordEnd)
      else
        convertGo sessionId chunkStart chunkId ws (some sp) (currentText ++ w.text) segmentStart
          (newLastWordEnd w lastWordEnd)
    else if w.type = "spacing" then
      convertGo sessionId chunkStart chunkId ws (some sp) (currentText ++ " ") segmentStart
        lastWordEnd
    else
      convertGo sessionId chunkStart chunkId ws (some sp) currentText segmentStart lastWordEnd

/-- `convertWordsToSegments` of the source. -/

def convertWordsToSegments (words : List ELWord) (sessionId : String) (chunkStart : ℚ)
    (chunkId : ℕ) : List Segment :=
  convertGo sessionId chunkStart chunkId words none "" 0 0

/-- Projection of a segment to its observable data, leaving out the
(randomly suffixed) id. -/

def segView (s : Segment) : String × ℚ × ℚ × String := (s.speaker, s.start, s.«end», s.text)

/-- Adding the chunk offset to a segment produced at offset zero. -/

def shiftSegment (off : ℚ) (s : Segment) : Segment :=
  { s with start := off + s.start, «end» := off + s.«end» }

/-- The two words of the C2 boundary example. -/

def wordHello : ELWord :=
  { text := "Hello", type := "word", start := some 0, «end» := some 1, speaker_id := some "0" }

def wordHi : ELWord :=
  { text := "Hi", type := "word", start := some 1, «end» := some 2, speaker_id := some "1" }

/-- Capture-pipeline state relevant to the stale-run guard: the current run id
(incremented by every start) and the session segment list. -/

structure CaptureState where
  runId : ℕ
  segments : List Segment
deriving DecidableEq

/-- A start of the capture effect: `const runId = ++runIdRef.current` together
with `setSegments([])`. -/

def startRun (s : CaptureState) : CaptureState :=
  { runId := s.runId + 1, segments := [] }

/-- Arrival of the transcription result of a chunk that was enqueued under
`runId`: the guard `if (runIdRef.current !== runId) return;` discards the
result when the run id has changed; otherwise the converted segments are
merged into the session list (only when non-empty, as in the source). -/

def processChunkResult (runId : ℕ) (words : List ELWord) (sessionId : String)
    (chunkStart : ℚ) (chunkId : ℕ) (s : CaptureState) : CaptureState :=
  if s.runId ≠ runId then s
  else
    let chunkSegments := convertWordsToSegments words sessionId chunkStart chunkId
    if chunkSegments = [] then s
    else { s with segments := mergeSegments s.segments chunkSegments }

/-- The inner accumulation loop of `downsampleBuffer`: the input samples at
indices `offsetBuffer ≤ i < nextOffsetBuffer` with `i < buffer.length`. -/

def goWindow (buffer : List ℚ) (offsetBuffer nextOffsetBuffer : ℕ) : List ℚ :=
  (List.range' offsetBuffer (min nextOffsetBuffer buffer.length - offsetBuffer)).map
    (fun i => buffer.getD i 0)

/-- The `while (offsetResult < result.length)` loop of `downsampleBuffer`:
`nextOffsetBuffer = Math.round((offsetResult + 1) * sampleRateRatio)`, the
output sample is `accum / count` when the window is non-empty and `0`
otherwise, and the walk continues with `offsetBuffer = nextOffsetBuffer`.
The first argument of the recursion counts the remaining output samples. -/

def downsampleGo (buffer : List ℚ) (ratio : ℚ) : ℕ → ℕ → ℕ → List ℚ
  | 0, _, _ => []
  | n + 1, offsetResult, offsetBuffer =>
    (if (goWindow buffer offsetBuffer ((round (((offsetResult : ℚ) + 1) * ratio)).toNat)).length ≠ 0
      then (goWindow buffer offsetBuffer
            ((round (((offsetResult : ℚ) + 1) * ratio)).toNat)).sum /
          (((goWindow buffer offsetBuffer
            ((round (((offsetResult : ℚ) + 1) * ratio)).toNat)).length : ℚ))
      else 0) ::
    downsampleGo buffer ratio n (offsetResult + 1)
      ((round (((offsetResult : ℚ) + 1) * ratio)).toNat)

/-- `downsampleBuffer` of the source: identical rates and upsampling return
the input unchanged, otherwise `round(N / (Rin / Rout))` averaged windows are
produced by the walking-boundary loop. -/

def downsampleBuffer (buffer : List ℚ) (inputSampleRate outputSampleRate : ℚ) : List ℚ :=
  if outputSampleRate = inputSampleRate then buffer
  else if inputSampleRate < outputSampleRate then buffer
  else
    downsampleGo buffer (inputSampleRate / outputSampleRate)
      ((round ((buffer.length : ℚ) / (inputSampleRate / outputSampleRate))).toNat) 0 0

/-- Boundary of the `k`-th walking window: `Math.round(k * sampleRateRatio)`
(the loop starts at `offsetBuffer = 0`, which equals the boundary at `k = 0`). -/

def windowBoundary (ratio : ℚ) (k : ℕ) : ℕ := (round ((k : ℚ) * ratio)).toNat

/-- Input samples of the `k`-th window: from boundary `k` (inclusive) to
boundary `k + 1` (exclusive), clipped to the input length. -/

def windowValues (buffer : List ℚ) (ratio : ℚ) (k : ℕ) : List ℚ :=
  goWindow buffer (windowBoundary ratio k) (windowBoundary ratio (k + 1))

/-- Arithmetic mean of the `k`-th window (`0` for an empty window, as in the
source). -/

def windowMean (buffer : List ℚ) (ratio : ℚ) (k : ℕ) : ℚ :=
  if (windowValues buffer ratio k).length ≠ 0 then
    (windowValues buffer ratio k).sum / ((windowValues buffer ratio k).length : ℚ)
  else 0

def bufNine : List ℚ := [0, 0, 0, 0, 0, 0, 0, 0, 1]

def bufNineZero : List ℚ := [0, 0, 0, 0, 0, 0, 0, 0, 0]

/-- The clamp `Math.max(-1, Math.min(1, sample))` of `createWavBlob`. -/

def clampSample (s : ℚ) : ℚ := max (-1) (min 1 s)

/-- Truncation toward zero: the integer conversion performed by
`DataView.setInt16` on a non-integral number (ToInt16 truncates). -/

def ratTrunc (q : ℚ) : ℤ := if 0 ≤ q then ⌊q⌋ else ⌈q⌉

/-- The per-sample conversion of `createWavBlob`:
`sample < 0 ? sample * 0x8000 : sample * 0x7fff` after clamping, truncated
toward zero by `setInt16`. -/

def toInt16Raw (s : ℚ) : ℤ :=
  if clampSample s < 0 then ratTrunc (clampSample s * 32768)
  else ratTrunc (clampSample s * 32767)

/-- Little-endian bytes written by `setInt16(offset, v, true)`: the value is
wrapped to 16 bits in two-of-complement form and split into two bytes. -/

def int16LEBytes (v : ℤ) : List ℕ :=
  [(v % 65536).toNat % 256, (v % 65536).toNat / 256]

/-- Little-endian bytes written by `setUint16(offset, n, true)`. -/

def uint16LEBytes (n : ℕ) : List ℕ := [n % 256, n / 256 % 256]

/-- Little-endian bytes written by `setUint32(offset, n, true)`. -/

def uint32LEBytes (n : ℕ) : List ℕ :=
  [n % 256, n / 256 % 256, n / 65536 % 256, n / 16777216 % 256]

/-- The bytes of the `writeString` helper (ASCII codes). -/

def asciiBytes (s : String) : List ℕ := s.data.map Char.toNat

/-- The 44-byte RIFF/WAVE header written by `createWavBlob`: chunk size,
format marker, fmt chunk (PCM, 1 channel, sample rate, byte rate, block align
2, 16 bits per sample) and data chunk size. -/

def wavHeader (sampleRate numSamples : ℕ) : List ℕ :=
  asciiBytes "RIFF" ++ uint32LEBytes (36 + numSamples * 2) ++ asciiBytes "WAVE" ++
  asciiBytes "fmt " ++ uint32LEBytes 16 ++ uint16LEBytes 1 ++ uint16LEBytes 1 ++
  uint32LEBytes sampleRate ++ uint32LEBytes (sampleRate * 2) ++ uint16LEBytes 2 ++
  uint16LEBytes 16 ++ asciiBytes "data" ++ uint32LEBytes (numSamples * 2)

/-- `createWavBlob` of the source: the 44-byte header followed by one
little-endian signed 16-bit integer per sample. -/

def createWavBlob (samples : List ℚ) (sampleRate : ℕ) : List ℕ :=
  wavHeader sampleRate samples.length ++
    samples.flatMap (fun s => int16LEBytes (toInt16Raw s))

/-- Standard little-endian decoding of two bytes as an unsigned integer. -/

def decodeUint16LE (b0 b1 : ℕ) : ℕ := b0 + 256 * b1

/-- Standard little-endian decoding of four bytes as an unsigned integer. -/

def decodeUint32LE (b0 b1 b2 b3 : ℕ) : ℕ :=
  b0 + 256 * b1 + 65536 * b2 + 16777216 * b3

/-- Standard little-endian decoding of two bytes as a signed 16-bit integer. -/

def decodeInt16LE (b0 b1 : ℕ) : ℤ :=
  if 32768 ≤ b0 + 256 * b1 then (b0 + 256 * b1 : ℤ) - 65536 else (b0 + 256 * b1 : ℤ)

/-- The fields of a returned claim that the merge step reads: its identity and
its ordering key (`start` may be absent, the comparator then uses 0). -/

structure ClaimR where
  id : String
  start : Option ℚ
deriving DecidableEq

/-- The comparator key `typeof c.start === "number" ? c.start : 0`. -/

def claimKey (c : ClaimR) : ℚ := c.start.getD 0

/-- The preorder induced by the comparator `(a, b) => aStart - bStart`. -/

def claimLE (a b : ClaimR) : Prop := claimKey a ≤ claimKey b

instance claimLE_decidable : DecidableRel claimLE := fun a b =>
  inferInstanceAs (Decidable (claimKey a ≤ claimKey b))

instance claimLE_total : IsTotal ClaimR claimLE := ⟨fun a b => le_total _ _⟩

instance claimLE_trans : IsTrans ClaimR claimLE := ⟨fun _ _ _ hab hbc => le_trans hab hbc⟩

/-- The claim merge of `flushChunk`:
`[...prev, ...analyzed].sort((a, b) => aStart - bStart)`.  An ECMAScript
`Array.prototype.sort` with a consistent comparator is a stable sort, and a
stable sort by a total preorder has a unique result, which
`List.insertionSort` computes. -/

def mergeClaims (prev analyzed : List ClaimR) : List ClaimR :=
  List.insertionSort claimLE (prev ++ analyzed)

def dupClaim : ClaimR := { id := "a", start := some 1 }

/-- Comparison of two segments by their `start` field. -/

def segStartLE (a b : Segment) : Prop := a.start ≤ b.start

instance segStartLE_decidable : DecidableRel segStartLE := fun a b =>
  inferInstanceAs (Decidable (a.start ≤ b.start))

instance segStartLE_trans : IsTrans Segment segStartLE :=
  ⟨fun _ _ _ hab hbc => le_trans hab hbc⟩

/-- The ordering invariant of the spec: adjacent segments have non-decreasing
`start`. -/

abbrev sortedByStart (l : List Segment) : Prop := l.Chain' segStartLE

def segLate : Segment :=
  { id := "x", sessionId := "s", speaker := "spk_0", start := 8, «end» := 10, text := "a" }

def segEarly : Segment :=
  { id := "y", sessionId := "s", speaker := "spk_1", start := 5, «end» := 6, text := "b" }

def segFirstW : Segment :=
  { id := "w1", sessionId := "s", speaker := "spk_0", start := 1, «end» := 2, text := "a" }

def segSecondW : Segment :=
  { id := "w2", sessionId := "s", speaker := "spk_1", start := 5, «end» := 6, text := "b" }

/-- Session-scoped aggregator state of the live page: the set of already
dispatched segment ids (`processedSegmentsRef`), the pending buffer
(`chunkBufferRef`) and the batches dispatched so far to the analysis
boundary. -/

structure AggState where
  processed : List String
  buffer : List Segment
  batches : List (List Segment)
deriving DecidableEq

/-- The `segments.filter((segment) => !processedSegmentsRef.current.has(segment.id))`
step of the segment-arrival effect. -/

def newSegsOf (segs : List Segment) (st : AggState) : List Segment :=
  segs.filter (fun seg => !(st.processed.contains seg.id))

/-- The segment-arrival effect: every new segment id is added to the processed
set and the segment is pushed onto the pending buffer. -/

def arriveSegments (segs : List Segment) (st : AggState) : AggState :=
  { st with
    processed := st.processed ++ (newSegsOf segs st).map Segment.id,
    buffer := st.buffer ++ newSegsOf segs st }

/-- One timer tick of `flushChunk`: when the pending buffer is non-empty it is
drained atomically into a batch that is dispatched exactly once. -/

def flushAgg (st : AggState) : AggState :=
  if st.buffer = [] then st
  else { st with buffer := [], batches := st.batches ++ [st.buffer] }

inductive AggEvent where
  | arrive (segs : List Segment)
  | flush
deriving DecidableEq

def aggStep (st : AggState) : AggEvent → AggState
  | .arrive segs => arriveSegments segs st
  | .flush => flushAgg st

/-- The state at session start (the processed set, buffer and dispatched
batches are all reset when the session id changes). -/

def aggInit : AggState := ⟨[], [], []⟩

def aggRun (events : List AggEvent) : AggState := events.foldl aggStep aggInit

/-- Two batches have no segment id in common. -/

def idDisjoint (b1 b2 : List Segment) : Prop :=
  ∀ i ∈ b1.map Segment.id, i ∉ b2.map Segment.id

/-- Aggregator invariant: buffered and dispatched ids are recorded in the
processed set, dispatched batches are pairwise disjoint by id, and nothing in
the buffer was already dispatched. -/

def AggInv (st : AggState) : Prop :=
  (∀ i ∈ st.buffer.map Segment.id, i ∈ st.processed) ∧
  (∀ b ∈ st.batches, ∀ i ∈ b.map Segment.id, i ∈ st.processed) ∧
  List.Pairwise idDisjoint st.batches ∧
  (∀ b ∈ st.batches, idDisjoint b st.buffer)

def demoEvents : List AggEvent :=
  [AggEvent.arrive [segFirstW], AggEvent.flush,
   AggEvent.arrive [segFirstW, segSecondW], AggEvent.flush]

/-- A word of a Deepgram streaming `Results` message (speaker may be absent). -/

structure DGWord where
  start : ℚ
  «end» : ℚ
  speaker : Option ℕ
deriving DecidableEq

/-- A Deepgram streaming result: the transcript of the first alternative, its
words, and the finality flag. -/

structure DGResult where
  transcript : String
  words : List DGWord
  is_final : Bool
deriving DecidableEq

/-- The `onmessage` handler of the streaming path for a `Results` message:
non-final or empty-text results are dropped; otherwise one segment is built
from the trimmed transcript, the first word start (default 0), the last word
end (default start + 1) and the first word speaker (default `spk_0`).  The
`Date.now()`-and-random id of the source is nondeterministic and rendered
deterministically here. -/

def segOfDGResult (sessionId : String) (r : DGResult) : Option Segment :=
  if trimString r.transcript = "" ∨ r.is_final = false then none
  else
    some { id := "seg_" ++ sessionId,
           sessionId := sessionId,
           speaker :=
             match r.words.head? with
             | some w =>
               match w.speaker with
               | some n => "spk_" ++ toString n
               | none => "spk_0"
             | none => "spk_0",
           start := ((r.words.head?).map DGWord.start).getD 0,
           «end» := ((r.words.getLast?).map (fun w => w.«end»)).getD
             (((r.words.head?).map DGWord.start).getD 0 + 1),
           text := trimString r.transcript }

/-- One `setSegments((prev) => [...prev, segment])` step of the streaming
path: the accepted segment is appended, nothing is merged. -/

def deepgramStep (sessionId : String) (acc : List Segment) (r : DGResult) : List Segment :=
  match segOfDGResult sessionId r with
  | some seg => acc ++ [seg]
  | none => acc

/-- The segment list produced by the streaming Deepgram path for a sequence of
results. -/

def deepgramRun (sessionId : String) (results : List DGResult) : List Segment :=
  results.foldl (deepgramStep sessionId) []

/-- One transcribed chunk of the chunked ElevenLabs path. -/

structure ELChunk where
  words : List ELWord
  chunkStart : ℚ
  chunkId : ℕ
deriving DecidableEq

/-- The segment list produced by the chunked ElevenLabs path: each chunk is
converted to segments and merged into the accumulated list via
`mergeSegments` (the source skips the merge entirely for an empty chunk,
which leaves the list unchanged just as the merge would). -/

def elevenLabsRun (sessionId : String) (chunks : List ELChunk) : List Segment :=
  chunks.foldl (fun acc ch =>
    if convertWordsToSegments ch.words sessionId ch.chunkStart ch.chunkId = [] then acc
    else mergeSegments acc (convertWordsToSegments ch.words sessionId ch.chunkStart ch.chunkId)) []

def dgResultHello : DGResult :=
  { transcript := "Hello", words := [{ start := 0, «end» := 1, speaker := some 0 }],
    is_final := true }

def dgResultWorld : DGResult :=
  { transcript := "world", words := [{ start := 3 / 2, «end» := 2, speaker := some 0 }],
    is_final := true }

def elWordHello : ELWord :=
  { text := "Hello", type := "word", start := some 0, «end» := some 1, speaker_id := some "0" }

def elWordWorld : ELWord :=
  { text := "world", type := "word", start := some 0, «end» := some (1 / 2),
    speaker_id := some "0" }

def elChunkHello : ELChunk := { words := [elWordHello], chunkStart := 0, chunkId := 0 }

def elChunkWorld : ELChunk := { words := [elWordWorld], chunkStart := 3 / 2, chunkId := 1 }

theorem mergeSegments_singleton (current : List Segment) (c : Segment) :
    mergeSegments current [c] = mergeOne current c := rfl

/-- C1: when the session list ends in `last` and a candidate arrives with the
same `sessionId` and `speaker` and `cand.start - last.end ≤ MERGE_GAP_SECONDS`
(1.25), the merge replaces `last` by a segment ending at
`max last.end cand.end` whose text is the two texts joined and single-space
normalized; when the gap is strictly larger than 1.25 or the speaker or the
session differs, the candidate is appended instead. -/
theorem mergeSegments_gap_behavior (pre : List Segment) (last cand : Segment) :
    (last.sessionId = cand.sessionId → last.speaker = cand.speaker →
      cand.start - last.«end» ≤ MERGE_GAP_SECONDS →
      mergeSegments (pre ++ [last]) [cand] =
        pre ++ [{ last with
          «end» := max last.«end» cand.«end»,
          text := normalizeSpaceText (last.text ++ " " ++ cand.text) }]) ∧
    (¬ (last.sessionId = cand.sessionId ∧ last.speaker = cand.speaker ∧
        cand.start - last.«end» ≤ MERGE_GAP_SECONDS) →
      mergeSegments (pre ++ [last]) [cand] = (pre ++ [last]) ++ [cand]) := by
  constructor
  · intro h1 h2 h3
    rw [mergeSegments_singleton, mergeOne, List.getLast?_concat]
    simp only [List.dropLast_concat]
    rw [if_pos ⟨h1, h2, h3⟩]
  · intro h
    rw [mergeSegments_singleton, mergeOne, List.getLast?_concat]
    simp only []
    rw [if_neg h]

theorem mergeSegments_gap_behavior_witness :
    mergeSegments [segEndTen] [segStart1125] =
      [{ segEndTen with
          «end» := max segEndTen.«end» segStart1125.«end»,
          text := normalizeSpaceText (segEndTen.text ++ " " ++ segStart1125.text) }] ∧
    mergeSegments [segEndTen] [segStart1126] = [segEndTen, segStart1126] := by
  constructor
  · exact (mergeSegments_gap_behavior [] segEndTen segStart1125).1 rfl rfl
      (by norm_num [segEndTen, segStart1125, MERGE_GAP_SECONDS])
  · exact (mergeSegments_gap_behavior [] segEndTen segStart1126).2
      (by norm_num [segEndTen, segStart1126, MERGE_GAP_SECONDS])

theorem dropWhile_self_dropWhile (p : Char → Bool) (l : List Char) :
    (l.dropWhile p).dropWhile p = l.dropWhile p := by
  induction l with
  | nil => rfl
  | cons c cs ih =>
    by_cases h : p c
    · simp [List.dropWhile_cons, h, ih]
    · simp [List.dropWhile_cons, h]

theorem dropWhile_eq_self_of_prefix (p : Char → Bool) {l l' : List Char}
    (h : l' <+: l) (hl : l.dropWhile p = l) : l'.dropWhile p = l' := by
  cases l' with
  | nil => rfl
  | cons c t =>
    obtain ⟨r, rfl⟩ := h
    by_cases hc : p c
    · exfalso
      have hlen := congrArg List.length hl
      rw [List.cons_append, List.dropWhile_cons, if_pos hc] at hlen
      have hle2 : ((t ++ r).dropWhile p).length ≤ (t ++ r).length :=
        (List.dropWhile_suffix p).length_le
      simp [List.length_append] at hlen hle2
      omega
    · simp [List.dropWhile_cons, hc]

theorem trimWs_idem (l : List Char) : trimWs (trimWs l) = trimWs l := by
  unfold trimWs
  set p := isSpaceChar with hp
  set a := l.dropWhile p with ha
  set b := (a.reverse.dropWhile p).reverse with hb
  have hbpre : b <+: a := by
    have hsuf : a.reverse.dropWhile p <:+ a.reverse := List.dropWhile_suffix p
    have hrp := List.reverse_prefix.2 hsuf
    rwa [List.reverse_reverse] at hrp
  have hadrop : a.dropWhile p = a := by rw [ha]; exact dropWhile_self_dropWhile p l
  have hbdrop : b.dropWhile p = b := dropWhile_eq_self_of_prefix p hbpre hadrop
  have hbrev : b.reverse.dropWhile p = b.reverse := by
    rw [hb, List.reverse_reverse]
    exact dropWhile_self_dropWhile p a.reverse
  rw [hbdrop, hbrev, List.reverse_reverse]

theorem data_asString (l : List Char) : (l.asString).data = l := by
  simp [List.asString]

theorem trimString_idem (s : String) : trimString (trimString s) = trimString s := by
  unfold trimString
  rw [data_asString, trimWs_idem]

theorem pushSegment_mem_text (sessionId : String) (chunkStart : ℚ) (chunkId : ℕ)
    (currentSpeaker : Option String) (currentText : String) (segmentStart lastWordEnd : ℚ)
    (s : Segment)
    (hs : s ∈ pushSegment sessionId chunkStart chunkId currentSpeaker currentText segmentStart
      lastWordEnd) :
    s.text ≠ "" ∧ trimString s.text = s.text := by
  cases currentSpeaker with
  | none => simp [pushSegment] at hs
  | some sp =>
    by_cases h : trimString currentText = ""
    · simp [pushSegment, h] at hs
    · simp [pushSegment, h] at hs
      subst hs
      exact ⟨h, trimString_idem currentText⟩

theorem convertGo_mem_text (sessionId : String) (chunkStart : ℚ) (chunkId : ℕ)
    (words : List ELWord) :
    ∀ (currentSpeaker : Option String) (currentText : String) (segmentStart lastWordEnd : ℚ)
      (s : Segment),
      s ∈ convertGo sessionId chunkStart chunkId words currentSpeaker currentText segmentStart
        lastWordEnd →
      s.text ≠ "" ∧ trimString s.text = s.text := by
  induction words with
  | nil =>
    intro cs ct ss lwe s hs
    exact pushSegment_mem_text sessionId chunkStart chunkId cs ct ss lwe s hs
  | cons w ws ih =>
    intro cs ct ss lwe s hs
    cases cs with
    | none =>
      rw [convertGo] at hs
      by_cases hw : w.type = "word"
      · rw [if_pos hw] at hs
        exact ih _ _ _ _ s hs
      · rw [if_neg hw] at hs
        by_cases hw2 : w.type = "spacing"
        · rw [if_pos hw2] at hs
          exact ih _ _ _ _ s hs
        · rw [if_neg hw2] at hs
          exact ih _ _ _ _ s hs
    | some sp =>
      rw [convertGo] at hs
      by_cases hw : w.type = "word"
      · rw [if_pos hw] at hs
        by_cases hsp : normalizeSpeakerId w.speaker_id ≠ sp
        · rw [if_pos hsp] at hs
          rcases List.mem_append.1 hs with h | h
          · exact pushSegment_mem_text sessionId chunkStart chunkId (some sp) ct ss lwe s h
          · exact ih _ _ _ _ s h
        · rw [if_neg hsp] at hs
          exact ih _ _ _ _ s hs
      · rw [if_neg hw] at hs
        by_cases hw2 : w.type = "spacing"
        · rw [if_pos hw2] at hs
          exact ih _ _ _ _ s hs
        · rw [if_neg hw2] at hs
          exact ih _ _ _ _ s hs

theorem pushSegment_shift (sessionId : String) (off : ℚ) (chunkId : ℕ)
    (currentSpeaker : Option String) (currentText : String) (segmentStart lastWordEnd : ℚ) :
    pushSegment sessionId off chunkId currentSpeaker currentText segmentStart lastWordEnd =
      (pushSegment sessionId 0 chunkId currentSpeaker currentText segmentStart lastWordEnd).map
        (shiftSegment off) := by
  cases currentSpeaker with
  | none => simp [pushSegment]
  | some sp =>
    by_cases h : trimString currentText = ""
    · simp [pushSegment, h]
    · simp [pushSegment, h, shiftSegment]

theorem convertGo_shift (sessionId : String) (off : ℚ) (chunkId : ℕ) (words : List ELWord) :
    ∀ (currentSpeaker : Option String) (currentText : String) (segmentStart lastWordEnd : ℚ),
      convertGo sessionId off chunkId words currentSpeaker currentText segmentStart lastWordEnd =
        (convertGo sessionId 0 chunkId words currentSpeaker currentText segmentStart
          lastWordEnd).map (shiftSegment off) := by
  induction words with
  | nil =>
    intro cs ct ss lwe
    exact pushSegment_shift sessionId off chunkId cs ct ss lwe
  | cons w ws ih =>
    intro cs ct ss lwe
    cases cs with
    | none =>
      rw [convertGo, convertGo]
      by_cases hw : w.type = "word"
      · rw [if_pos hw, if_pos hw]
        exact ih _ _ _ _
      · rw [if_neg hw, if_neg hw]
        by_cases hw2 : w.type = "spacing"
        · rw [if_pos hw2, if_pos hw2]
          exact ih _ _ _ _
        · rw [if_neg hw2, if_neg hw2]
          exact ih _ _ _ _
    | some sp =>
      rw [convertGo, convertGo]
      by_cases hw : w.type = "word"
      · rw [if_pos hw, if_pos hw]
        by_cases hsp : normalizeSpeakerId w.speaker_id ≠ sp
        · rw [if_pos hsp, if_pos hsp, List.map_append, pushSegment_shift, ih]
        · rw [if_neg hsp, if_neg hsp]
          exact ih _ _ _ _
      · rw [if_neg hw, if_neg hw]
        by_cases hw2 : w.type = "spacing"
        · rw [if_pos hw2, if_pos hw2]
          exact ih _ _ _ _
        · rw [if_neg hw2, if_neg hw2]
          exact ih _ _ _ _

/-- C2: the converter closes the in-progress segment at each speaker change
(trimming the text and discarding empty segments), assigns absolute times
equal to the chunk offset plus the word-relative offsets, and on the word list
Hello(speaker 0, 0-1) / Hi(speaker 1, 1-2) at offset 0 produces exactly the
segments (spk_0, 0, 1, Hello) and (spk_1, 1, 2, Hi). -/
theorem convertWordsToSegments_spec :
    ((convertWordsToSegments [wordHello, wordHi] "s1" 0 0).map segView =
      [("spk_0", 0, 1, "Hello"), ("spk_1", 1, 2, "Hi")]) ∧
    (∀ (words : List ELWord) (sessionId : String) (chunkStart : ℚ) (chunkId : ℕ),
      convertWordsToSegments words sessionId chunkStart chunkId =
        (convertWordsToSegments words sessionId 0 chunkId).map (shiftSegment chunkStart)) ∧
    (∀ (words : List ELWord) (sessionId : String) (chunkStart : ℚ) (chunkId : ℕ) (s : Segment),
      s ∈ convertWordsToSegments words sessionId chunkStart chunkId →
      s.text ≠ "" ∧ trimString s.text = s.text) := by
  refine ⟨?_, ?_, ?_⟩
  · with_unfolding_all decide
  · intro words sessionId chunkStart chunkId
    exact convertGo_shift sessionId chunkStart chunkId words none "" 0 0
  · intro words sessionId chunkStart chunkId s hs
    exact convertGo_mem_text sessionId chunkStart chunkId words none "" 0 0 s hs

theorem convertWordsToSegments_spec_witness :
    ((convertWordsToSegments [wordHello, wordHi] "s1" 5 0).map segView =
      [("spk_0", 5, 6, "Hello"), ("spk_1", 6, 7, "Hi")]) ∧
    ("Hello" : String) ≠ "" ∧ trimString "Hello" = "Hello" := by
  have hshift := convertWordsToSegments_spec.2.1 [wordHello, wordHi] "s1" 5 0
  have hmem := convertWordsToSegments_spec.2.2 [wordHello, wordHi] "s1" 0 0
  refine ⟨?_, ?_⟩
  · rw [hshift]
    with_unfolding_all decide
  · exact hmem
      { id := segmentIdFor "s1" 0 0, sessionId := "s1", speaker := "spk_0", start := 0,
        «end» := 1, text := "Hello" }
      (by with_unfolding_all decide)

theorem spk_append_ne_empty (x : String) : "spk_" ++ x ≠ "" := by
  intro h
  have hlen := congrArg String.length h
  rw [String.length_append] at hlen
  have h4 : ("spk_" : String).length = 4 := by decide
  have h0 : ("" : String).length = 0 := by decide
  omega

theorem firstDigitRun_isSome (l : List Char) (c : Char) (hc : c ∈ l) (hd : c.isDigit = true) :
    ∃ run, firstDigitRun l = some run := by
  induction l with
  | nil => simp at hc
  | cons a as ih =>
    by_cases ha : a.isDigit
    · exact ⟨a :: as.takeWhile Char.isDigit, by rw [firstDigitRun, if_pos ha]⟩
    · rcases List.mem_cons.1 hc with rfl | hmem
      · exact absurd hd ha
      · obtain ⟨run, hrun⟩ := ih hmem
        exact ⟨run, by rw [firstDigitRun, if_neg ha, hrun]⟩

theorem normalizeSpeakerId_ne_empty (o : Option String) : normalizeSpeakerId o ≠ "" := by
  cases o with
  | none => decide
  | some s =>
    rw [normalizeSpeakerId]
    by_cases hs : s = ""
    · rw [if_pos hs]; decide
    · rw [if_neg hs]
      cases hrun : firstDigitRun s.data with
      | some run => exact spk_append_ne_empty run.asString
      | none =>
        by_cases hsp : s.data.take 8 = "speaker_".data
        · rw [if_pos hsp]
          exact spk_append_ne_empty (s.data.drop 8).asString
        · rw [if_neg hsp]
          exact hs

theorem pushSegment_mem_speaker (sessionId : String) (chunkStart : ℚ) (chunkId : ℕ)
    (currentSpeaker : Option String) (currentText : String) (segmentStart lastWordEnd : ℚ)
    (s : Segment)
    (hs : s ∈ pushSegment sessionId chunkStart chunkId currentSpeaker currentText segmentStart
      lastWordEnd) :
    ∃ sp, currentSpeaker = some sp ∧ s.speaker = sp := by
  cases currentSpeaker with
  | none => simp [pushSegment] at hs
  | some sp =>
    by_cases h : trimString currentText = ""
    · simp [pushSegment, h] at hs
    · simp [pushSegment, h] at hs
      exact ⟨sp, rfl, by rw [hs]⟩

theorem convertGo_mem_speaker (sessionId : String) (chunkStart : ℚ) (chunkId : ℕ)
    (words : List ELWord) :
    ∀ (currentSpeaker : Option String) (currentText : String) (segmentStart lastWordEnd : ℚ),
      (∀ sp, currentSpeaker = some sp → sp ≠ "") →
      ∀ s : Segment,
        s ∈ convertGo sessionId chunkStart chunkId words currentSpeaker currentText segmentStart
          lastWordEnd →
        s.speaker ≠ "" := by
  induction words with
  | nil =>
    intro cs ct ss lwe hcs s hs
    obtain ⟨sp, hsp, hspeq⟩ :=
      pushSegment_mem_speaker sessionId chunkStart chunkId cs ct ss lwe s hs
    rw [hspeq]
    exact hcs sp hsp
  | cons w ws ih =>
    intro cs ct ss lwe hcs s hs
    cases cs with
    | none =>
      rw [convertGo] at hs
      by_cases hw : w.type = "word"
      · rw [if_pos hw] at hs
        exact ih _ _ _ _ (fun sp h => by cases h; exact normalizeSpeakerId_ne_empty _) s hs
      · rw [if_neg hw] at hs
        by_cases hw2 : w.type = "spacing"
        · rw [if_pos hw2] at hs
          exact ih _ _ _ _ (by simp) s hs
        · rw [if_neg hw2] at hs
          exact ih _ _ _ _ (by simp) s hs
    | some sp =>
      rw [convertGo] at hs
      by_cases hw : w.type = "word"
      · rw [if_pos hw] at hs
        by_cases hsp : normalizeSpeakerId w.speaker_id ≠ sp
        · rw [if_pos hsp] at hs
          rcases List.mem_append.1 hs with h | h
          · obtain ⟨sp2, hsp2, hspeq⟩ :=
              pushSegment_mem_speaker sessionId chunkStart chunkId (some sp) ct ss lwe s h
            rw [hspeq]
            exact hcs sp2 hsp2
          · exact ih _ _ _ _ (fun sp2 h2 => by cases h2; exact normalizeSpeakerId_ne_empty _) s h
        · rw [if_neg hsp] at hs
          exact ih _ _ _ _ (fun sp2 h2 => by cases h2; exact hcs sp rfl) s hs
      · rw [if_neg hw] at hs
        by_cases hw2 : w.type = "spacing"
        · rw [if_pos hw2] at hs
          exact ih _ _ _ _ (fun sp2 h2 => by cases h2; exact hcs sp rfl) s hs
        · rw [if_neg hw2] at hs
          exact ih _ _ _ _ (fun sp2 h2 => by cases h2; exact hcs sp rfl) s hs

/-- C10: a word of kind `"word"` with a missing speaker tag is attributed to
`spk_0`; a tag containing digits is mapped to `spk_` followed by its first
digit run; normalization never yields the empty string, so every segment
produced by the converter carries a non-empty speaker identifier. -/
theorem normalizeSpeakerId_spec :
    normalizeSpeakerId none = "spk_0" ∧
    (∀ (s : String) (c : Char), c ∈ s.data → c.isDigit = true →
      ∃ run, firstDigitRun s.data = some run ∧
        normalizeSpeakerId (some s) = "spk_" ++ run.asString) ∧
    (∀ o : Option String, normalizeSpeakerId o ≠ "") ∧
    (∀ (words : List ELWord) (sessionId : String) (chunkStart : ℚ) (chunkId : ℕ) (s : Segment),
      s ∈ convertWordsToSegments words sessionId chunkStart chunkId → s.speaker ≠ "") := by
  refine ⟨rfl, ?_, normalizeSpeakerId_ne_empty, ?_⟩
  · intro s c hc hd
    obtain ⟨run, hrun⟩ := firstDigitRun_isSome s.data c hc hd
    refine ⟨run, hrun, ?_⟩
    have hs : s ≠ "" := by
      intro h
      subst h
      simp at hc
    rw [normalizeSpeakerId, if_neg hs, hrun]
  · intro words sessionId chunkStart chunkId s hs
    exact convertGo_mem_speaker sessionId chunkStart chunkId words none "" 0 0 (by simp) s hs

theorem normalizeSpeakerId_spec_witness :
    normalizeSpeakerId (some "speaker_12") = "spk_12" ∧
    (∀ s ∈ convertWordsToSegments [wordHello] "s1" 0 0, s.speaker ≠ "") := by
  constructor
  · obtain ⟨run, hrun, heq⟩ :=
      normalizeSpeakerId_spec.2.1 "speaker_12" '1' (by decide) (by decide)
    have hrun12 : run = ['1', '2'] := by
      have : some run = some ['1', '2'] := by
        rw [← hrun]
        decide
      exact Option.some_injective _ this
    rw [heq, hrun12]
    decide
  · intro s hs
    exact normalizeSpeakerId_spec.2.2.2 [wordHello] "s1" 0 0 s hs

/-- C4: a transcription result tagged with a run id that the pipeline has
advanced past leaves the session segment list unchanged; a start advances the
run id by one. -/
theorem processChunkResult_stale (s : CaptureState) (runId : ℕ) (words : List ELWord)
    (sessionId : String) (chunkStart : ℚ) (chunkId : ℕ) (h : runId < s.runId) :
    (processChunkResult runId words sessionId chunkStart chunkId s).segments = s.segments ∧
    (startRun s).runId = s.runId + 1 := by
  constructor
  · rw [processChunkResult, if_pos (by omega)]
  · rfl

theorem processChunkResult_stale_witness :
    (processChunkResult 1 [wordHello] "s1" 0 0 (startRun ⟨1, []⟩)).segments =
      (startRun ⟨1, []⟩).segments := by
  exact (processChunkResult_stale (startRun ⟨1, []⟩) 1 [wordHello] "s1" 0 0 (by decide)).1

theorem windowBoundary_succ (ratio : ℚ) (k : ℕ) :
    windowBoundary ratio (k + 1) = (round (((k : ℚ) + 1) * ratio)).toNat := by
  rw [windowBoundary]
  push_cast
  ring_nf

theorem downsampleGo_eq_map (buffer : List ℚ) (ratio : ℚ) :
    ∀ m k : ℕ,
      downsampleGo buffer ratio m k (windowBoundary ratio k) =
        (List.range m).map (fun j => windowMean buffer ratio (k + j)) := by
  intro m
  induction m with
  | zero => intro k; rfl
  | succ n ih =>
    intro k
    rw [downsampleGo]
    have hnob : (round (((k : ℚ) + 1) * ratio)).toNat = windowBoundary ratio (k + 1) :=
      (windowBoundary_succ ratio k).symm
    rw [hnob, ih (k + 1), List.range_succ_eq_map, List.map_cons, List.map_map]
    congr 1
    apply List.map_congr_left
    intro j _
    simp only [Function.comp_apply]
    congr 1
    omega

theorem windowBoundary_zero (ratio : ℚ) : windowBoundary ratio 0 = 0 := by
  rw [windowBoundary]
  norm_num

theorem windowBoundary_one (k : ℕ) : windowBoundary 1 k = k := by
  rw [windowBoundary, mul_one, round_natCast, Int.toNat_natCast]

theorem windowMean_ratio_one (buffer : List ℚ) (i : ℕ) (hi : i < buffer.length) :
    windowMean buffer 1 i = buffer.getD i 0 := by
  have hv : windowValues buffer 1 i = [buffer.getD i 0] := by
    rw [windowValues, windowBoundary_one, windowBoundary_one, goWindow]
    have hmin : min (i + 1) buffer.length = i + 1 := by omega
    rw [hmin]
    have hcount : i + 1 - i = 1 := by omega
    rw [hcount]
    rfl
  rw [windowMean, hv]
  norm_num

/-- C3 (amended part): for `0 < Rout ≤ Rin` the output is exactly one sample
per window index below `round(N * Rout / Rin)`, each equal to the arithmetic
mean of its walking-boundary window (windows are consecutive, starting at
input index 0, clipped to the input length); for `Rout > Rin` the input is
returned unchanged; the empty input yields an empty output. -/
theorem downsampleBuffer_spec (buffer : List ℚ) (inputSampleRate outputSampleRate : ℚ)
    (hpos : 0 < outputSampleRate) :
    (outputSampleRate ≤ inputSampleRate →
      downsampleBuffer buffer inputSampleRate outputSampleRate =
        (List.range ((round ((buffer.length : ℚ) * outputSampleRate / inputSampleRate)).toNat)).map
          (windowMean buffer (inputSampleRate / outputSampleRate)) ∧
      (downsampleBuffer buffer inputSampleRate outputSampleRate).length =
        (round ((buffer.length : ℚ) * outputSampleRate / inputSampleRate)).toNat) ∧
    (inputSampleRate < outputSampleRate →
      downsampleBuffer buffer inputSampleRate outputSampleRate = buffer) ∧
    (buffer = [] → downsampleBuffer buffer inputSampleRate outputSampleRate = []) := by
  have hdiv : (buffer.length : ℚ) / (inputSampleRate / outputSampleRate) =
      (buffer.length : ℚ) * outputSampleRate / inputSampleRate :=
    div_div_eq_mul_div _ _ _
  refine ⟨?_, ?_, ?_⟩
  · intro hle
    have hmain : downsampleBuffer buffer inputSampleRate outputSampleRate =
        (List.range ((round ((buffer.length : ℚ) * outputSampleRate / inputSampleRate)).toNat)).map
          (windowMean buffer (inputSampleRate / outputSampleRate)) := by
      rcases eq_or_lt_of_le hle with heq | hlt
      · have hratio : inputSampleRate / outputSampleRate = 1 := by
          rw [← heq, div_self (ne_of_gt hpos)]
        have hn : ((round ((buffer.length : ℚ) * outputSampleRate / inputSampleRate)).toNat) =
            buffer.length := by
          rw [← hdiv, hratio, div_one, round_natCast, Int.toNat_natCast]
        rw [downsampleBuffer, if_pos heq, hn, hratio]
        apply List.ext_getElem
        · simp
        · intro i hi hi2
          simp only [List.getElem_map, List.getElem_range]
          have hii : i < buffer.length := hi
          rw [windowMean_ratio_one buffer i hii, List.getD_eq_getElem buffer 0 hii]
      · have h1 : ¬ outputSampleRate = inputSampleRate := ne_of_lt hlt
        have h2 : ¬ inputSampleRate < outputSampleRate := not_lt_of_gt hlt
        rw [downsampleBuffer, if_neg h1, if_neg h2, hdiv]
        have hgo := downsampleGo_eq_map buffer (inputSampleRate / outputSampleRate)
          ((round ((buffer.length : ℚ) * outputSampleRate / inputSampleRate)).toNat) 0
        rw [windowBoundary_zero] at hgo
        simp only [Nat.zero_add] at hgo
        exact hgo
    exact ⟨hmain, by rw [hmain]; simp⟩
  · intro hlt
    rw [downsampleBuffer, if_neg (fun h => (ne_of_lt hlt) h.symm), if_pos hlt]
  · intro hb
    subst hb
    rw [downsampleBuffer]
    by_cases h1 : outputSampleRate = inputSampleRate
    · rw [if_pos h1]
    · rw [if_neg h1]
      by_cases h2 : inputSampleRate < outputSampleRate
      · rw [if_pos h2]
      · rw [if_neg h2]
        simp only [List.length_nil, Nat.cast_zero, zero_div, round_zero, Int.toNat_zero]
        rfl

/-- Counterexample for C3 as stated: with 9 input samples and rates
`Rin = 4`, `Rout = 1` the output has `round(9/4) = 2` windows whose upper
boundary is input index 8, so the ninth input sample (index 8) lies in no
window: the windows do not tile the input.  Concretely, an input whose ninth
sample is 1 and an input whose ninth sample is 0 produce the same output. -/
theorem downsampleBuffer_windows_not_tiling :
    downsampleBuffer bufNine 4 1 = [0, 0] ∧
    downsampleBuffer bufNineZero 4 1 = [0, 0] ∧
    bufNine ≠ bufNineZero ∧
    windowBoundary (4 / 1) 2 = 8 ∧
    ¬ bufNine.length ≤ windowBoundary (4 / 1) 2 := by
  refine ⟨?_, ?_, ?_, ?_, ?_⟩
  · with_unfolding_all decide
  · with_unfolding_all decide
  · with_unfolding_all decide
  · with_unfolding_all decide
  · with_unfolding_all decide

theorem downsampleBuffer_spec_witness :
    downsampleBuffer [1, 2, 3, 4] 2 1 = [3 / 2, 7 / 2] ∧
    downsampleBuffer [1, 2, 3] 1 2 = [1, 2, 3] ∧
    downsampleBuffer [] 4 1 = [] := by
  refine ⟨?_, ?_, ?_⟩
  · have h := (downsampleBuffer_spec [1, 2, 3, 4] 2 1 (by norm_num)).1 (by norm_num)
    rw [h.1]
    with_unfolding_all decide
  · exact (downsampleBuffer_spec [1, 2, 3] 1 2 (by norm_num)).2.1 (by norm_num)
  · exact (downsampleBuffer_spec [] 4 1 (by norm_num)).2.2 rfl

theorem wavHeader_eq (rate n : ℕ) :
    wavHeader rate n =
      [82, 73, 70, 70,
       (36 + n * 2) % 256, (36 + n * 2) / 256 % 256, (36 + n * 2) / 65536 % 256,
       (36 + n * 2) / 16777216 % 256,
       87, 65, 86, 69,
       102, 109, 116, 32,
       16, 0, 0, 0,
       1, 0,
       1, 0,
       rate % 256, rate / 256 % 256, rate / 65536 % 256, rate / 16777216 % 256,
       rate * 2 % 256, rate * 2 / 256 % 256, rate * 2 / 65536 % 256, rate * 2 / 16777216 % 256,
       2, 0,
       16, 0,
       100, 97, 116, 97,
       n * 2 % 256, n * 2 / 256 % 256, n * 2 / 65536 % 256, n * 2 / 16777216 % 256] := by
  have hriff : asciiBytes "RIFF" = [82, 73, 70, 70] := by decide
  have hwave : asciiBytes "WAVE" = [87, 65, 86, 69] := by decide
  have hfmt : asciiBytes "fmt " = [102, 109, 116, 32] := by decide
  have hdata : asciiBytes "data" = [100, 97, 116, 97] := by decide
  rw [wavHeader, hriff, hwave, hfmt, hdata]
  simp [uint32LEBytes, uint16LEBytes]

theorem wavHeader_length (rate n : ℕ) : (wavHeader rate n).length = 44 := by
  rw [wavHeader_eq]
  rfl

theorem toInt16Raw_range (s : ℚ) : -32768 ≤ toInt16Raw s ∧ toInt16Raw s ≤ 32767 := by
  have h1 : -1 ≤ clampSample s := le_max_left _ _
  have h2 : clampSample s ≤ 1 := max_le (by norm_num) (min_le_left 1 s)
  rw [toInt16Raw]
  by_cases hneg : clampSample s < 0
  · rw [if_pos hneg, ratTrunc,
      if_neg (not_le.2 (mul_neg_of_neg_of_pos hneg (by norm_num)))]
    constructor
    · have hge : ((-32768 : ℤ) : ℚ) ≤ clampSample s * 32768 := by
        push_cast
        nlinarith
      have hcc := Int.ceil_le_ceil hge
      rwa [Int.ceil_intCast] at hcc
    · have hle0 : clampSample s * 32768 ≤ 0 :=
        le_of_lt (mul_neg_of_neg_of_pos hneg (by norm_num))
      have hc0 : ⌈clampSample s * 32768⌉ ≤ 0 := Int.ceil_le.2 (by exact_mod_cast hle0)
      omega
  · rw [if_neg hneg, ratTrunc,
      if_pos (mul_nonneg (not_lt.1 hneg) (by norm_num))]
    constructor
    · have := Int.floor_nonneg.2 (mul_nonneg (not_lt.1 hneg) (by norm_num : (0:ℚ) ≤ 32767))
      omega
    · have hle : clampSample s * 32767 ≤ ((32767 : ℤ) : ℚ) := by
        push_cast
        nlinarith
      have hff := Int.floor_le_floor hle
      rwa [Int.floor_intCast] at hff

theorem decodeInt16LE_int16LEBytes (v : ℤ) (h1 : -32768 ≤ v) (h2 : v ≤ 32767) :
    decodeInt16LE ((int16LEBytes v).getD 0 0) ((int16LEBytes v).getD 1 0) = v := by
  rw [int16LEBytes, decodeInt16LE]
  simp only [List.getD_cons_zero, List.getD_cons_succ]
  split <;> omega

/-- C8 (amended part): the encoder output is the 44-byte fixed header followed
by one little-endian signed 16-bit value per sample; the header encodes
channel count 1, the sample rate, bit depth 16 and the payload byte length;
each payload value is the sample clamped to `[-1, 1]`, scaled by 32767
(non-negative) or 32768 (negative) and truncated toward zero, always within
the int16 range and recovered exactly by a standard signed LE decoder. -/
theorem createWavBlob_spec (samples : List ℚ) (sampleRate : ℕ)
    (hrate : sampleRate < 4294967296) (hlen : samples.length * 2 < 4294967296) :
    createWavBlob samples sampleRate =
      wavHeader sampleRate samples.length ++
        samples.flatMap (fun s => int16LEBytes (toInt16Raw s)) ∧
    (createWavBlob samples sampleRate).length = 44 + 2 * samples.length ∧
    decodeUint16LE ((createWavBlob samples sampleRate).getD 22 0)
      ((createWavBlob samples sampleRate).getD 23 0) = 1 ∧
    decodeUint32LE ((createWavBlob samples sampleRate).getD 24 0)
      ((createWavBlob samples sampleRate).getD 25 0)
      ((createWavBlob samples sampleRate).getD 26 0)
      ((createWavBlob samples sampleRate).getD 27 0) = sampleRate ∧
    decodeUint16LE ((createWavBlob samples sampleRate).getD 34 0)
      ((createWavBlob samples sampleRate).getD 35 0) = 16 ∧
    decodeUint32LE ((createWavBlob samples sampleRate).getD 40 0)
      ((createWavBlob samples sampleRate).getD 41 0)
      ((createWavBlob samples sampleRate).getD 42 0)
      ((createWavBlob samples sampleRate).getD 43 0) = samples.length * 2 ∧
    (∀ s : ℚ,
      -32768 ≤ toInt16Raw s ∧ toInt16Raw s ≤ 32767 ∧
      decodeInt16LE ((int16LEBytes (toInt16Raw s)).getD 0 0)
        ((int16LEBytes (toInt16Raw s)).getD 1 0) = toInt16Raw s) := by
  have hgetD : ∀ i : ℕ, i < 44 →
      (createWavBlob samples sampleRate).getD i 0 =
        (wavHeader sampleRate samples.length).getD i 0 := by
    intro i hi
    rw [createWavBlob]
    exact List.getD_append _ _ _ _ (by rw [wavHeader_length]; omega)
  refine ⟨rfl, ?_, ?_, ?_, ?_, ?_, ?_⟩
  · rw [createWavBlob, List.length_append, wavHeader_length, List.length_flatMap]
    have hmap : (List.map (List.length ∘ fun s => int16LEBytes (toInt16Raw s)) samples) =
        List.map (fun _ => 2) samples := by
      apply List.map_congr_left
      intro s _
      rfl
    rw [hmap, List.map_const', List.sum_replicate, smul_eq_mul]
    omega
  · rw [hgetD 22 (by omega), hgetD 23 (by omega), wavHeader_eq]
    rfl
  · rw [hgetD 24 (by omega), hgetD 25 (by omega), hgetD 26 (by omega), hgetD 27 (by omega),
      wavHeader_eq]
    show decodeUint32LE (sampleRate % 256) (sampleRate / 256 % 256) (sampleRate / 65536 % 256)
      (sampleRate / 16777216 % 256) = sampleRate
    rw [decodeUint32LE]
    omega
  · rw [hgetD 34 (by omega), hgetD 35 (by omega), wavHeader_eq]
    rfl
  · rw [hgetD 40 (by omega), hgetD 41 (by omega), hgetD 42 (by omega), hgetD 43 (by omega),
      wavHeader_eq]
    show decodeUint32LE (samples.length * 2 % 256) (samples.length * 2 / 256 % 256)
      (samples.length * 2 / 65536 % 256) (samples.length * 2 / 16777216 % 256) =
      samples.length * 2
    rw [decodeUint32LE]
    omega
  · intro s
    obtain ⟨hlo, hhi⟩ := toInt16Raw_range s
    exact ⟨hlo, hhi, decodeInt16LE_int16LEBytes _ hlo hhi⟩

theorem createWavBlob_spec_witness :
    createWavBlob [1, -1, 0] 16000 =
      wavHeader 16000 3 ++
        ([1, -1, 0] : List ℚ).flatMap (fun s => int16LEBytes (toInt16Raw s)) ∧
    (createWavBlob [1, -1, 0] 16000).length = 50 ∧
    decodeUint16LE ((createWavBlob [1, -1, 0] 16000).getD 22 0)
      ((createWavBlob [1, -1, 0] 16000).getD 23 0) = 1 := by
  have h := createWavBlob_spec [1, -1, 0] 16000 (by norm_num) (by norm_num)
  exact ⟨h.1, h.2.1, h.2.2.1⟩

/-- Counterexample for C8 as stated: at sample 1/2 the claimed positive-branch
conversion `round(sample * 32767) = round(16383.5) = 16384` differs from what
the encoder stores: truncation gives 16383, whose little-endian bytes at the
start of the payload are 255 and 63 (not 0 and 64). -/
theorem createWavBlob_not_rounded :
    toInt16Raw (1 / 2) = 16383 ∧
    round ((1 / 2 : ℚ) * 32767) = 16384 ∧
    (createWavBlob [1 / 2] 16000).getD 44 0 = 255 ∧
    (createWavBlob [1 / 2] 16000).getD 45 0 = 63 ∧
    int16LEBytes (round ((1 / 2 : ℚ) * 32767)) = [0, 64] ∧
    decodeInt16LE 255 63 = 16383 := by
  refine ⟨?_, ?_, ?_, ?_, ?_, ?_⟩
  · with_unfolding_all decide
  · with_unfolding_all decide
  · with_unfolding_all decide
  · with_unfolding_all decide
  · with_unfolding_all decide
  · with_unfolding_all decide

theorem filter_orderedInsert (q : ℚ) (a : ClaimR) (l : List ClaimR) :
    (List.orderedInsert claimLE a l).filter (fun c => decide (claimKey c = q)) =
      if claimKey a = q then a :: l.filter (fun c => decide (claimKey c = q))
      else l.filter (fun c => decide (claimKey c = q)) := by
  induction l with
  | nil =>
    by_cases haq : claimKey a = q
    · simp [List.orderedInsert, List.filter, haq]
    · simp [List.orderedInsert, List.filter, haq]
  | cons b bs ih =>
    rw [List.orderedInsert]
    by_cases hab : claimLE a b
    · rw [if_pos hab]
      by_cases haq : claimKey a = q <;> by_cases hbq : claimKey b = q <;>
        simp [List.filter_cons, haq, hbq]
    · rw [if_neg hab]
      rw [List.filter_cons]
      by_cases hbq : claimKey b = q
      · by_cases haq : claimKey a = q
        · exact absurd (show claimLE a b from by rw [claimLE, haq, hbq]) hab
        · simp [hbq, List.filter_cons, ih, haq]
      · by_cases haq : claimKey a = q
        · simp [hbq, List.filter_cons, ih, haq]
        · simp [hbq, List.filter_cons, ih, haq]

theorem filter_insertionSort (q : ℚ) (l : List ClaimR) :
    (List.insertionSort claimLE l).filter (fun c => decide (claimKey c = q)) =
      l.filter (fun c => decide (claimKey c = q)) := by
  induction l with
  | nil => rfl
  | cons a as ih =>
    rw [List.insertionSort, filter_orderedInsert, List.filter_cons]
    by_cases haq : claimKey a = q
    · simp [haq, ih]
    · simp [haq, ih]

/-- C6 (amended part): after a successful flush the claim list is exactly the
previous claims plus the returned batch, sorted by start (missing starts sort
as 0), stably: elements, their multiplicity and the relative order of
equal-key claims are all preserved.  No de-duplication by id takes place. -/
theorem mergeClaims_spec (prev analyzed : List ClaimR) :
    (mergeClaims prev analyzed).Perm (prev ++ analyzed) ∧
    List.Sorted claimLE (mergeClaims prev analyzed) ∧
    (∀ q : ℚ, (mergeClaims prev analyzed).filter (fun c => decide (claimKey c = q)) =
      (prev ++ analyzed).filter (fun c => decide (claimKey c = q))) :=
  ⟨List.perm_insertionSort claimLE (prev ++ analyzed),
   List.sorted_insertionSort claimLE (prev ++ analyzed),
   fun q => filter_insertionSort q (prev ++ analyzed)⟩

/-- Counterexample for C6 as stated: a batch whose claim id is already present
in the list is not de-duplicated; the merged list keeps both copies. -/
theorem mergeClaims_no_dedup :
    mergeClaims [dupClaim] [dupClaim] = [dupClaim, dupClaim] ∧
    (mergeClaims [dupClaim] [dupClaim]).map ClaimR.id = ["a", "a"] ∧
    ¬ ((mergeClaims [dupClaim] [dupClaim]).map ClaimR.id).Nodup := by
  refine ⟨?_, ?_, ?_⟩
  · with_unfolding_all decide
  · with_unfolding_all decide
  · with_unfolding_all decide

theorem mergeOne_starts (acc : List Segment) (c : Segment) :
    (mergeOne acc c).map Segment.start = acc.map Segment.start ++ [c.start] ∨
    (mergeOne acc c).map Segment.start = acc.map Segment.start := by
  rcases List.eq_nil_or_concat acc with rfl | ⟨ys, previous, rfl⟩
  · left
    simp [mergeOne]
  · by_cases hcond : previous.sessionId = c.sessionId ∧ previous.speaker = c.speaker ∧
        c.start - previous.«end» ≤ MERGE_GAP_SECONDS
    · right
      simp only [mergeOne, List.concat_eq_append, List.getLast?_concat]
      rw [if_pos hcond, List.dropLast_concat]
      simp
    · left
      simp only [mergeOne, List.concat_eq_append, List.getLast?_concat]
      rw [if_neg hcond]
      simp

theorem mergeOne_start_subset (acc : List Segment) (c : Segment) :
    ∀ s ∈ mergeOne acc c, ∃ t ∈ acc ++ [c], s.start = t.start := by
  intro s hs
  have hmem : s.start ∈ (mergeOne acc c).map Segment.start := List.mem_map_of_mem _ hs
  rcases mergeOne_starts acc c with h | h <;> rw [h] at hmem
  · rcases List.mem_append.1 hmem with h2 | h2
    · obtain ⟨t, ht, hts⟩ := List.mem_map.1 h2
      exact ⟨t, List.mem_append_left _ ht, hts.symm⟩
    · rw [List.mem_singleton] at h2
      exact ⟨c, List.mem_append_right _ (List.mem_singleton_self c), h2⟩
  · obtain ⟨t, ht, hts⟩ := List.mem_map.1 hmem
    exact ⟨t, List.mem_append_left _ ht, hts.symm⟩

theorem pairwise_of_starts {l l' : List Segment}
    (h : l.map Segment.start = l'.map Segment.start)
    (hp : List.Pairwise segStartLE l') : List.Pairwise segStartLE l := by
  have h1 : List.Pairwise (· ≤ ·) (l'.map Segment.start) :=
    List.pairwise_map.2 (hp.imp (fun hab => hab))
  rw [← h] at h1
  have h2 := List.pairwise_map.1 h1
  exact h2.imp (fun hab => hab)

theorem mergeOne_pairwise (acc : List Segment) (c : Segment)
    (h : List.Pairwise segStartLE (acc ++ [c])) :
    List.Pairwise segStartLE (mergeOne acc c) := by
  rcases mergeOne_starts acc c with hst | hst
  · exact pairwise_of_starts (by rw [hst, List.map_append]; rfl) h
  · exact pairwise_of_starts (by rw [hst]) (h.sublist (List.sublist_append_left acc [c]))

theorem mergeSegments_pairwise (incoming : List Segment) :
    ∀ current : List Segment, List.Pairwise segStartLE (current ++ incoming) →
      List.Pairwise segStartLE (mergeSegments current incoming) := by
  induction incoming with
  | nil =>
    intro current h
    simpa using h
  | cons c cs ih =>
    intro current h
    show List.Pairwise segStartLE (mergeSegments (mergeOne current c) cs)
    apply ih
    rw [List.pairwise_append] at h ⊢
    obtain ⟨hcur, hccs, hcross⟩ := h
    rw [List.pairwise_cons] at hccs
    obtain ⟨hc_cs, hcs⟩ := hccs
    refine ⟨?_, hcs, ?_⟩
    · apply mergeOne_pairwise
      rw [List.pairwise_append]
      refine ⟨hcur, List.pairwise_singleton _ _, ?_⟩
      intro a ha b hb
      rw [List.mem_singleton] at hb
      rw [hb]
      exact hcross a ha c (List.mem_cons_self c cs)
    · intro a ha b hb
      obtain ⟨t, ht, hts⟩ := mergeOne_start_subset current c a ha
      show a.start ≤ b.start
      rw [hts]
      rcases List.mem_append.1 ht with htc | htc
      · exact hcross t htc b (List.mem_cons_of_mem c hb)
      · rw [List.mem_singleton] at htc
        subst htc
        exact hc_cs b hb

theorem mergeSegments_start_subset (incoming : List Segment) :
    ∀ current : List Segment, ∀ s ∈ mergeSegments current incoming,
      ∃ t ∈ current ++ incoming, s.start = t.start := by
  induction incoming with
  | nil =>
    intro current s hs
    exact ⟨s, by simpa using hs, rfl⟩
  | cons c cs ih =>
    intro current s hs
    obtain ⟨t, ht, hts⟩ := ih (mergeOne current c) s hs
    rcases List.mem_append.1 ht with htm | htm
    · obtain ⟨u, hu, hut⟩ := mergeOne_start_subset current c t htm
      refine ⟨u, ?_, hts.trans hut⟩
      rcases List.mem_append.1 hu with h2 | h2
      · exact List.mem_append_left _ h2
      · rw [List.mem_singleton] at h2
        subst h2
        exact List.mem_append_right _ (List.mem_cons_self _ _)
    · exact ⟨t, List.mem_append_right _ (List.mem_cons_of_mem c htm), hts⟩

theorem foldl_mergeSegments_pairwise (batches : List (List Segment)) :
    ∀ current : List Segment, List.Pairwise segStartLE (current ++ batches.flatten) →
      List.Pairwise segStartLE (batches.foldl mergeSegments current) := by
  induction batches with
  | nil =>
    intro current h
    simpa using h
  | cons b bs ih =>
    intro current h
    show List.Pairwise segStartLE (bs.foldl mergeSegments (mergeSegments current b))
    apply ih
    rw [List.flatten_cons, ← List.append_assoc] at h
    rw [List.pairwise_append] at h ⊢
    obtain ⟨hcb, hflat, hcross⟩ := h
    refine ⟨mergeSegments_pairwise b current hcb, hflat, ?_⟩
    intro a ha x hx
    obtain ⟨t, ht, hts⟩ := mergeSegments_start_subset b current a ha
    show a.start ≤ x.start
    rw [hts]
    exact hcross t ht x hx

/-- C5 (amended part): when the existing list and the arriving batches are
jointly ordered by `start` (their concatenation in arrival order is sorted, as
holds for chunk results processed in FIFO order), any sequence of
`mergeSegments` merges yields a list with non-decreasing `start`. -/
theorem mergeSegments_ordering (current : List Segment) (batches : List (List Segment))
    (h : sortedByStart (current ++ batches.flatten)) :
    sortedByStart (batches.foldl mergeSegments current) := by
  rw [sortedByStart, List.chain'_iff_pairwise] at h ⊢
  exact foldl_mergeSegments_pairwise batches current h

/-- Counterexample for C5 as stated (arbitrary batches): a batch containing a
later-starting segment before an earlier-starting one of a different speaker
is appended in that order and the resulting list is not sorted by `start`. -/
theorem mergeSegments_not_always_sorted :
    mergeSegments [] [segLate, segEarly] = [segLate, segEarly] ∧
    ¬ sortedByStart (mergeSegments [] [segLate, segEarly]) := by
  have heq : mergeSegments [] [segLate, segEarly] = [segLate, segEarly] := by
    with_unfolding_all decide
  refine ⟨heq, ?_⟩
  rw [heq]
  norm_num [List.chain'_cons, List.chain'_singleton, segStartLE, segLate, segEarly]

theorem mergeSegments_ordering_witness :
    sortedByStart (([] : List Segment) ++ [[segFirstW], [segSecondW]].flatten) ∧
    sortedByStart ([[segFirstW], [segSecondW]].foldl mergeSegments []) := by
  have hsorted : sortedByStart (([] : List Segment) ++ [[segFirstW], [segSecondW]].flatten) := by
    norm_num [List.chain'_cons, List.chain'_singleton, segStartLE, segFirstW, segSecondW]
  exact ⟨hsorted, mergeSegments_ordering [] [[segFirstW], [segSecondW]] hsorted⟩

theorem newSegsOf_id_not_processed (segs : List Segment) (st : AggState) :
    ∀ i ∈ (newSegsOf segs st).map Segment.id, i ∉ st.processed := by
  intro i hi hmem
  obtain ⟨seg, hseg, rfl⟩ := List.mem_map.1 hi
  have hpred := (List.mem_filter.1 hseg).2
  have : seg.id ∉ st.processed := by simpa using hpred
  exact this hmem

theorem arriveSegments_inv (segs : List Segment) (st : AggState) (h : AggInv st) :
    AggInv (arriveSegments segs st) := by
  obtain ⟨hbuf, hbat, hpw, hdisj⟩ := h
  refine ⟨?_, ?_, hpw, ?_⟩
  · intro i hi
    rw [show (arriveSegments segs st).buffer = st.buffer ++ newSegsOf segs st from rfl,
      List.map_append] at hi
    rcases List.mem_append.1 hi with h2 | h2
    · exact List.mem_append_left _ (hbuf i h2)
    · exact List.mem_append_right _ h2
  · intro b hb i hi
    exact List.mem_append_left _ (hbat b hb i hi)
  · intro b hb
    intro i hi
    rw [show (arriveSegments segs st).buffer = st.buffer ++ newSegsOf segs st from rfl,
      List.map_append, List.mem_append]
    push_neg
    exact ⟨hdisj b hb i hi,
      fun hmem => newSegsOf_id_not_processed segs st i hmem (hbat b hb i hi)⟩

theorem flushAgg_inv (st : AggState) (h : AggInv st) : AggInv (flushAgg st) := by
  obtain ⟨hbuf, hbat, hpw, hdisj⟩ := h
  rw [flushAgg]
  by_cases hemp : st.buffer = []
  · rw [if_pos hemp]
    exact ⟨hbuf, hbat, hpw, hdisj⟩
  · rw [if_neg hemp]
    refine ⟨?_, ?_, ?_, ?_⟩
    · intro i hi
      simp at hi
    · intro b hb i hi
      rcases List.mem_append.1 hb with h2 | h2
      · exact hbat b h2 i hi
      · rw [List.mem_singleton] at h2
        exact hbuf i (h2 ▸ hi)
    · rw [List.pairwise_append]
      refine ⟨hpw, List.pairwise_singleton _ _, ?_⟩
      intro b1 hb1 b2 hb2
      rw [List.mem_singleton] at hb2
      rw [hb2]
      exact hdisj b1 hb1
    · intro b hb i hi hmem
      simp at hmem

theorem aggStep_inv (st : AggState) (e : AggEvent) (h : AggInv st) : AggInv (aggStep st e) := by
  cases e with
  | arrive segs => exact arriveSegments_inv segs st h
  | flush => exact flushAgg_inv st h

theorem aggInit_inv : AggInv aggInit := by
  refine ⟨?_, ?_, ?_, ?_⟩ <;> simp [aggInit]

theorem aggRun_inv (events : List AggEvent) : AggInv (aggRun events) := by
  rw [aggRun]
  have hfold : ∀ (evs : List AggEvent) (st : AggState), AggInv st →
      AggInv (evs.foldl aggStep st) := by
    intro evs
    induction evs with
    | nil => intro st h; exact h
    | cons e es ih =>
      intro st h
      exact ih _ (aggStep_inv st e h)
  exact hfold events aggInit aggInit_inv

/-- C7: a segment is appended to the pending buffer only when its id is not in
the processed set, and for every sequence of segment arrivals and timer
flushes the dispatched batches have pairwise-disjoint segment ids. -/
theorem aggregator_no_redispatch :
    (∀ events : List AggEvent, List.Pairwise idDisjoint (aggRun events).batches) ∧
    (∀ (st : AggState) (segs : List Segment) (s : Segment),
      s ∈ (arriveSegments segs st).buffer → s ∉ st.buffer → s.id ∉ st.processed) := by
  constructor
  · intro events
    exact (aggRun_inv events).2.2.1
  · intro st segs s hs hnot
    have hsplit : s ∈ st.buffer ++ newSegsOf segs st := hs
    rcases List.mem_append.1 hsplit with h2 | h2
    · exact absurd h2 hnot
    · have hpred := (List.mem_filter.1 h2).2
      simpa using hpred

theorem aggregator_no_redispatch_witness :
    (aggRun demoEvents).batches = [[segFirstW], [segSecondW]] ∧
    List.Pairwise idDisjoint (aggRun demoEvents).batches ∧
    segFirstW ∈ (arriveSegments [segFirstW] aggInit).buffer ∧
    segFirstW.id ∉ aggInit.processed := by
  refine ⟨?_, aggregator_no_redispatch.1 demoEvents, ?_, ?_⟩
  · with_unfolding_all decide
  · with_unfolding_all decide
  · exact aggregator_no_redispatch.2 aggInit [segFirstW] segFirstW
      (by with_unfolding_all decide) (by with_unfolding_all decide)

theorem deepgramStep_eq (sessionId : String) (acc : List Segment) (r : DGResult) :
    deepgramStep sessionId acc r = acc ++ (segOfDGResult sessionId r).toList := by
  cases h : segOfDGResult sessionId r <;> simp [deepgramStep, h]

theorem deepgram_foldl_filterMap (sessionId : String) (results : List DGResult) :
    ∀ acc : List Segment,
      results.foldl (deepgramStep sessionId) acc =
        acc ++ results.filterMap (segOfDGResult sessionId) := by
  induction results with
  | nil => intro acc; simp
  | cons r rs ih =>
    intro acc
    rw [List.foldl_cons, deepgramStep_eq, ih, List.filterMap_cons]
    cases h : segOfDGResult sessionId r <;> simp [h]

/-- C9 (amended part): the streaming Deepgram path applies no merge logic at
all — its segment list is exactly one appended segment per accepted final
result, in arrival order, whereas the chunked ElevenLabs path folds
`mergeSegments` over the converted chunks; the two backends therefore do not
share the segment-merge step and can produce different lists for the same
word data. -/
theorem deepgramRun_no_merge (sessionId : String) (results : List DGResult) :
    deepgramRun sessionId results = results.filterMap (segOfDGResult sessionId) := by
  rw [deepgramRun, deepgram_foldl_filterMap]
  rfl

/-- Counterexample for C9 as stated: for the same word data — speaker 0 saying
Hello during 0 to 1 and world during 1.5 to 2 — the chunked ElevenLabs path
merges the two spans (gap 0.5 at most 1.25) into one segment while the
streaming Deepgram path appends two segments: the session segment list is not
the same function of the word data across the two providers. -/
theorem providers_differ :
    (elevenLabsRun "s" [elChunkHello, elChunkWorld]).map segView =
      [("spk_0", 0, 2, "Hello world")] ∧
    (deepgramRun "s" [dgResultHello, dgResultWorld]).map segView =
      [("spk_0", 0, 1, "Hello"), ("spk_0", 3 / 2, 2, "world")] ∧
    (elevenLabsRun "s" [elChunkHello, elChunkWorld]).map segView ≠
      (deepgramRun "s" [dgResultHello, dgResultWorld]).map segView := by
  refine ⟨?_, ?_, ?_⟩
  · with_unfolding_all decide
  · with_unfolding_all decide
  · with_unfolding_all decide

end Transcript
